import Mathlib

/-!
Shallow embedding of the `JsonStorage` component of the little-big-data
repository (`src/little_big_data/storage/json_storage.py`) together with the
record model (`src/little_big_data/core/base.py`, `DataPoint`) and the one
registered specialization (`src/little_big_data/models/strava.py`,
`StravaActivity`).

Modelling conventions:
* Strings are `List Char` (`Str`), so that file-name splitting can be reasoned
  about by structural induction.
* Timestamps are `Int`.  `datetime` values are totally ordered and
  `timestamp.isoformat()` is injective, so the dedup key component
  `timestamp.isoformat()` is modelled by the timestamp itself.
* JSON-compatible attribute values are the inductive `Jval`; a parsed metadata
  mapping is an association list `List (Str × Jval)`.
* A backing file is either invalid JSON (`FileContent.corrupt`, raising
  `json.JSONDecodeError` on read) or a parsed JSON array of objects
  (`FileContent.entries`).  Each array element is an `Item`: the shape
  `model_dump` produces, i.e. the fields `timestamp`, `source`, `data_type`,
  the nested `metadata` object, and any further top-level keys (`extra`,
  used by the pydantic `extra = "allow"` specialization `StravaActivity`).
* The store directory is `StoreState`, an association list from file stem
  (the file name without the `.json` suffix) to content, in directory order.
* Operations that can raise a Python exception other than the caught
  `json.JSONDecodeError` return the partially updated state together with an
  error indication (`Bool` flag for `save`, `Option` results for
  `load`/`delete`); an exception escapes before any further file is written,
  so the returned state is the state at raise time.
-/

abbrev Str := List Char

/-- A JSON-compatible value, as obtained from `json.load`.  Arrays and
objects are represented as cons-chains (`jarrCons`/`jobjCons`) so that the
type is a plain first-order inductive; the store never interprets attribute
values, it only compares them for equality. -/
inductive Jval where
  | jnull : Jval
  | jbool : Bool → Jval
  | jnum : Int → Jval
  | jstr : Str → Jval
  | jarrNil : Jval
  | jarrCons : Jval → Jval → Jval
  | jobjNil : Jval
  | jobjCons : Str → Jval → Jval → Jval
  deriving DecidableEq

/-- A metadata mapping embedded as a JSON object value. -/
def jobjOf : List (Str × Jval) → Jval
  | [] => Jval.jobjNil
  | (k, v) :: rest => Jval.jobjCons k v (jobjOf rest)

/-- The record model: `DataPoint` from `core/base.py`.  `extra` holds the
top-level fields beyond the four declared ones; it is `[]` for a plain
`DataPoint` (whose pydantic config ignores unknown keys) and holds the
declared-plus-extra fields of a `StravaActivity` instance. -/
structure DataPoint where
  timestamp : Int
  source : Str
  data_type : Str
  metadata : List (Str × Jval)
  extra : List (Str × Jval)
  deriving DecidableEq

/-- One element of a backing file's JSON array, as written by
`json.dump([point.model_dump() for point in all_points], ...)`. -/
structure Item where
  timestamp : Int
  source : Str
  data_type : Str
  metadata : List (Str × Jval)
  extra : List (Str × Jval)
  deriving DecidableEq

/-- Content of one backing file. -/
inductive FileContent where
  | corrupt : FileContent
  | entries : List Item → FileContent
  deriving DecidableEq

/-- The store directory: file stems (names without `.json`) with their
contents, in directory order.  Only `*.json` files are modelled, since every
operation of `JsonStorage` looks exclusively at `*.json` files. -/
abbrev StoreState := List (Str × FileContent)

/-- First-match association-list lookup (`dict.get` / reading the one file
with a given name). -/
def alookup (k : Str) : List (Str × Jval) → Option Jval
  | [] => none
  | (k', v) :: rest => if k' = k then some v else alookup k rest

def lookupFile : StoreState → Str → Option FileContent
  | [], _ => none
  | (n, c) :: rest, stem => if n = stem then some c else lookupFile rest stem

/-- `open(file_path, "w")`: overwrite the file if present, else create it. -/
def writeFile : StoreState → Str → FileContent → StoreState
  | [], stem, c => [(stem, c)]
  | (n, c') :: rest, stem, c =>
      if n = stem then (stem, c) :: rest else (n, c') :: writeFile rest stem c

/-- `file_path.unlink()`. -/
def removeFile : StoreState → Str → StoreState
  | [], _ => []
  | (n, c) :: rest, stem =>
      if n = stem then rest else (n, c) :: removeFile rest stem

/-- `JsonStorage._get_file_path`: the stem of `f"{source}_{data_type}.json"`. -/
def fileStem (source data_type : Str) : Str := source ++ '_' :: data_type

/-- `"_" in stem` followed by `stem.split("_", 1)`: `none` when the stem has
no underscore (such files are skipped while scanning), otherwise the parts
before and after the first underscore. -/
def splitStem : Str → Option (Str × Str)
  | [] => none
  | c :: cs =>
      if c = '_' then some ([], cs)
      else (splitStem cs).map fun p => (c :: p.1, p.2)

def stravaStr : Str := "strava".toList
def activityStr : Str := "activity".toList

def isJnum : Option Jval → Bool
  | some (Jval.jnum _) => true
  | _ => false

def isJstr : Option Jval → Bool
  | some (Jval.jstr _) => true
  | _ => false

/-- The required, non-defaulted fields of `StravaActivity`
(`activity_id : int`, `name : str`, `activity_type : str`, `distance : float`,
`moving_time : int`, `elapsed_time : int`, `total_elevation_gain : float`):
`StravaActivity.model_validate(item)` succeeds exactly when the item carries
all of them with suitable values. -/
def stravaRequiredOk (fs : List (Str × Jval)) : Bool :=
  isJnum (alookup "activity_id".toList fs) &&
  isJstr (alookup "name".toList fs) &&
  isJstr (alookup "activity_type".toList fs) &&
  isJnum (alookup "distance".toList fs) &&
  isJnum (alookup "moving_time".toList fs) &&
  isJnum (alookup "elapsed_time".toList fs) &&
  isJnum (alookup "total_elevation_gain".toList fs)

/-- `point.model_dump()`: all fields of the record at the top level, with the
attribute mapping nested under the `metadata` key. -/
def serializePoint (p : DataPoint) : Item :=
  ⟨p.timestamp, p.source, p.data_type, p.metadata, p.extra⟩

/-- `JsonStorage._deserialize_point`: items whose `source`/`data_type` fields
are `("strava", "activity")` go through `StravaActivity.model_validate`
(which keeps every top-level key, `extra = "allow"`, and fails without the
required fields, raising `pydantic.ValidationError`); every other item goes
through `DataPoint.model_validate`, which ignores unknown top-level keys.
`none` models the uncaught `ValidationError`. -/
def deserializePoint (i : Item) : Option DataPoint :=
  if i.source = stravaStr ∧ i.data_type = activityStr then
    if stravaRequiredOk i.extra then
      some ⟨i.timestamp, i.source, i.data_type, i.metadata, i.extra⟩
    else none
  else some ⟨i.timestamp, i.source, i.data_type, i.metadata, []⟩

/-- `[self._deserialize_point(item) for item in existing_data]`: the first
failing item raises, discarding the whole list. -/
def deserAll : List Item → Option (List DataPoint)
  | [] => some []
  | i :: is =>
      match deserializePoint i, deserAll is with
      | some p, some ps => some (p :: ps)
      | _, _ => none

/-- The dedup identity key
`(point.timestamp.isoformat(), point.metadata.get('id', str(hash(str(point.metadata)))))`.
The fallback `str(hash(str(metadata)))` is a value computed deterministically
from the full metadata mapping; it is modelled by the mapping itself (the
code relies only on the fallback being a deterministic function of the
metadata). -/
def pointKey (p : DataPoint) : Int × Jval :=
  (p.timestamp,
    match alookup "id".toList p.metadata with
    | some v => v
    | none => jobjOf p.metadata)

/-- `all_points.sort(key=lambda x: x.timestamp)` (Python sort is stable). -/
def tsLe (a b : DataPoint) : Prop := a.timestamp ≤ b.timestamp

instance : DecidableRel tsLe := fun a b =>
  inferInstanceAs (Decidable (a.timestamp ≤ b.timestamp))

instance : IsTotal DataPoint tsLe := ⟨fun a b => Int.le_total a.timestamp b.timestamp⟩

instance : IsTrans DataPoint tsLe := ⟨fun _ _ _ h h' => le_trans h h'⟩

def sortTs (l : List DataPoint) : List DataPoint := List.insertionSort tsLe l

/-- `existing_data` in `JsonStorage.save`: the parsed array when the file
exists and is valid JSON, else `[]` (missing file, or `json.JSONDecodeError`
caught and treated as empty). -/
def existingItems (st : StoreState) (stem : Str) : List Item :=
  match lookupFile st stem with
  | some (FileContent.entries es) => es
  | _ => []

/-- The body of the per-group loop of `JsonStorage.save`.  The `Bool` is the
error flag: `true` models an uncaught `ValidationError` while deserializing
the existing data, which escapes before the file is written. -/
def saveGroup (st : StoreState) (s d : Str) (pts : List DataPoint) :
    StoreState × Bool :=
  let stem := fileStem s d
  match deserAll (existingItems st stem) with
  | none => (st, true)
  | some existing_points =>
      let existing_ids := existing_points.map pointKey
      let new_points := pts.filter fun p => decide (¬ pointKey p ∈ existing_ids)
      let all_points := sortTs (existing_points ++ new_points)
      (writeFile st stem (FileContent.entries (all_points.map serializePoint)),
        false)

/-- `(point.source, point.data_type)`. -/
def groupKeyOf (p : DataPoint) : Str × Str := (p.source, p.data_type)

/-- The keys of the `groups` dict of `JsonStorage.save`, in first-insertion
order. -/
def groupKeys (R : List DataPoint) : List (Str × Str) :=
  R.foldl (fun acc p => if groupKeyOf p ∈ acc then acc else acc ++ [groupKeyOf p]) []

/-- The `groups` dict of `JsonStorage.save` as an ordered list. -/
def groupsOf (R : List DataPoint) : List ((Str × Str) × List DataPoint) :=
  (groupKeys R).map fun k => (k, R.filter fun p => groupKeyOf p = k)

/-- The group loop of `JsonStorage.save`; an exception while processing one
group leaves the groups already processed written and the rest untouched. -/
def saveGroups : StoreState → List ((Str × Str) × List DataPoint) → StoreState × Bool
  | st, [] => (st, false)
  | st, ((s, d), pts) :: rest =>
      match saveGroup st s d pts with
      | (st', true) => (st', true)
      | (st', false) => saveGroups st' rest

/-- `JsonStorage.save`. -/
def saveOp (R : List DataPoint) (st : StoreState) : StoreState × Bool :=
  saveGroups st (groupsOf R)

/-- Python truthiness of an optional string argument (`if source and ...`). -/
def given : Option Str → Bool
  | none => false
  | some s => !s.isEmpty

/-- The date filter of `JsonStorage.load`: skip when
`start_date and point.timestamp < start_date` or
`end_date and point.timestamp > end_date` (inclusive range). -/
def matchByDate (a b : Option Int) (ts : Int) : Bool :=
  (match a with | none => true | some x => decide (x ≤ ts)) &&
  (match b with | none => true | some y => decide (ts ≤ y))

/-- The `files_to_load` computation of `JsonStorage.load`: with both `source`
and `data_type` truthy, exactly one stem; otherwise every `*.json` stem that
contains an underscore and whose `split("_", 1)` parts match the given
filters (`is None or ==`). -/
def candidateStems (s? d? : Option Str) (st : StoreState) : List Str :=
  match s?, d? with
  | some s, some d =>
      if s.isEmpty ∨ d.isEmpty then scanStems (some s) (some d) st
      else [fileStem s d]
  | _, _ => scanStems s? d? st
where
  scanStems (s? d? : Option Str) (st : StoreState) : List Str :=
    (st.map Prod.fst).filter fun stem =>
      match splitStem stem with
      | none => false
      | some (fs, fd) =>
          (match s? with | none => true | some s => decide (fs = s)) &&
          (match d? with | none => true | some d => decide (fd = d))

/-- Reading one candidate file in `JsonStorage.load`: a missing file
contributes nothing, a `json.JSONDecodeError` is caught and the file skipped,
and a `ValidationError` on any item (`none`) escapes and aborts the call. -/
def loadFile (st : StoreState) (a b : Option Int) (stem : Str) :
    Option (List DataPoint) :=
  match lookupFile st stem with
  | none => some []
  | some FileContent.corrupt => some []
  | some (FileContent.entries es) =>
      (deserAll es).map (List.filter fun p => matchByDate a b p.timestamp)

def loadFiles (st : StoreState) (a b : Option Int) : List Str → Option (List DataPoint)
  | [] => some []
  | stem :: rest =>
      match loadFile st a b stem, loadFiles st a b rest with
      | some l, some r => some (l ++ r)
      | _, _ => none

/-- `JsonStorage.load`. -/
def load4 (s? d? : Option Str) (a b : Option Int) (st : StoreState) :
    Option (List DataPoint) :=
  (loadFiles st a b (candidateStems s? d? st)).map sortTs

/-- The record-level deletion criteria of the `JsonStorage.delete` loop
(`should_delete`): falsy (absent or empty) string filters impose no
constraint. -/
def matchesDel (s? d? : Option Str) (a b : Option Int) (p : DataPoint) : Bool :=
  (match s? with | none => true | some s => s.isEmpty || decide (p.source = s)) &&
  (match d? with | none => true | some d => d.isEmpty || decide (p.data_type = d)) &&
  (match a with | none => true | some x => decide (x ≤ p.timestamp)) &&
  (match b with | none => true | some y => decide (p.timestamp ≤ y))

/-- The general branch of `JsonStorage.delete`: load everything, keep the
non-matching records, unlink every `*.json` file, and re-save the kept
records (when any) into the now-empty directory. -/
def deleteRewrite (s? d? : Option Str) (a b : Option Int) (st : StoreState) :
    StoreState × Option Nat :=
  match load4 none none none none st with
  | none => (st, none)
  | some all =>
      let matched := all.filter (matchesDel s? d? a b)
      let kept := all.filter fun p => !(matchesDel s? d? a b p)
      let st' : StoreState := if kept.isEmpty then [] else (saveOp kept []).1
      (st', some matched.length)

/-- `JsonStorage.delete`.  The `Option Nat` result is the returned count,
`none` modelling an uncaught exception from a nested `load`. -/
def deleteOp (s? d? : Option Str) (a b : Option Int) (st : StoreState) :
    StoreState × Option Nat :=
  match load4 s? d? a b st with
  | none => (st, none)
  | some pts =>
      if pts.isEmpty then (st, some 0)
      else
        match s?, d?, a, b with
        | some s, some d, none, none =>
            if s.isEmpty ∨ d.isEmpty then deleteRewrite (some s) (some d) none none st
            else if (lookupFile st (fileStem s d)).isSome then
              (removeFile st (fileStem s d), some pts.length)
            else (st, some 0)
        | _, _, _, _ => deleteRewrite s? d? a b st

/-- Records as the repository's record model produces them: either a
`StravaActivity`-shaped record (registered pair `("strava", "activity")`,
arbitrary further top-level fields) or a plain `DataPoint`, which carries no
top-level fields beyond the declared four (its pydantic config ignores
unknown keys at construction). -/
def GoodRecord (p : DataPoint) : Prop :=
  (p.source = stravaStr ∧ p.data_type = activityStr) ∨ p.extra = []

instance (p : DataPoint) : Decidable (GoodRecord p) := by
  unfold GoodRecord
  infer_instance

/-- A file content that parses as JSON but raises `ValidationError` when its
items are deserialized. -/
def Poisoned (c : Option FileContent) : Prop :=
  ∃ es, c = some (FileContent.entries es) ∧ deserAll es = none

/-- A file in the shape `JsonStorage.save` leaves it: a JSON array whose
items either fail to re-deserialize as a whole (so the next touch of the
file raises before writing), or deserialize to a timestamp-sorted list of
points that serialize back to exactly these items and whose dedup keys cover
`ks`. -/
def SavedFile (ks : List (Int × Jval)) (c : Option FileContent) : Prop :=
  ∃ es, c = some (FileContent.entries es) ∧
    (deserAll es = none ∨
      ∃ qs, deserAll es = some qs ∧ qs.map serializePoint = es ∧
        List.Sorted tsLe qs ∧ ∀ k ∈ ks, k ∈ qs.map pointKey)

/-- Precondition for a pass of the group loop of `JsonStorage.save` to leave
the state untouched: every group either finds all its records' keys already
present in its (stably written) file, or is preceded by a group whose file
raises on deserialization, halting the pass with the state unchanged. -/
def PassPre (st : StoreState) : List ((Str × Str) × List DataPoint) → Prop
  | [] => True
  | ((s, d), pts) :: gs =>
      SavedFile (pts.map pointKey) (lookupFile st (fileStem s d)) ∧
      (Poisoned (lookupFile st (fileStem s d)) ∨ PassPre st gs)

/-- Store states reachable from an empty directory by `save`/`delete`. -/
inductive Reachable : StoreState → Prop where
  | empty : Reachable []
  | save (R : List DataPoint) (st : StoreState) :
      Reachable st → Reachable (saveOp R st).1
  | del (s? d? : Option Str) (a b : Option Int) (st : StoreState) :
      Reachable st → Reachable (deleteOp s? d? a b st).1

/-- Timestamp order on serialized items. -/
def itemTsLe (a b : Item) : Prop := a.timestamp ≤ b.timestamp

/-- The top-level keys of the JSON object `json.dump` writes for one record:
the declared `DataPoint` fields in pydantic declaration order, then the
specialization's further top-level fields. -/
def itemTopKeys (i : Item) : List Str :=
  ["timestamp".toList, "source".toList, "data_type".toList, "metadata".toList]
    ++ i.extra.map Prod.fst

/-- Modelled from the spec: the persisted layout §6 claims for one array
element — a flat object holding `timestamp`, `source`, `category`
(`data_type`), and all attribute keys merged at the top level, with no
nested attribute container. -/
def specFlatTopKeys (p : DataPoint) : List Str :=
  ["timestamp".toList, "source".toList, "data_type".toList]
    ++ p.metadata.map Prod.fst

/-- The `sample_data_points` fixture of `tests/conftest.py` (timestamps
abbreviated to their day ordinal). -/
def samplePoints : List DataPoint :=
  [⟨1, "test_source".toList, "test_type".toList,
      [("id".toList, Jval.jstr "1".toList), ("value".toList, Jval.jnum 10)], []⟩,
   ⟨2, "test_source".toList, "test_type".toList,
      [("id".toList, Jval.jstr "2".toList), ("value".toList, Jval.jnum 20)], []⟩,
   ⟨3, "another_source".toList, "another_type".toList,
      [("id".toList, Jval.jstr "3".toList), ("value".toList, Jval.jnum 30)], []⟩]

/-- The store after saving the fixture into an empty directory. -/
def sampleState : StoreState := (saveOp samplePoints []).1

theorem lookupFile_writeFile_self (st : StoreState) (stem : Str) (c : FileContent) :
    lookupFile (writeFile st stem c) stem = some c := by
  induction st with
  | nil => simp [writeFile, lookupFile]
  | cons hd tl ih =>
      obtain ⟨n, c'⟩ := hd
      by_cases h : n = stem <;> simp [writeFile, lookupFile, h, ih]

theorem writeFile_lookup_self (st : StoreState) (stem : Str) (c : FileContent)
    (h : lookupFile st stem = some c) : writeFile st stem c = st := by
  induction st with
  | nil => simp [lookupFile] at h
  | cons hd tl ih =>
      obtain ⟨n, c'⟩ := hd
      by_cases hn : n = stem
      · simp [lookupFile, hn] at h
        simp [writeFile, hn, h]
      · simp [lookupFile, hn] at h
        simp [writeFile, hn, ih h]

theorem lookupFile_writeFile_ne (st : StoreState) (stem stem' : Str) (c : FileContent)
    (h : stem' ≠ stem) :
    lookupFile (writeFile st stem c) stem' = lookupFile st stem' := by
  induction st with
  | nil => simp [writeFile, lookupFile, Ne.symm h]
  | cons hd tl ih =>
      obtain ⟨n, c'⟩ := hd
      by_cases hn : n = stem
      · subst hn
        simp [writeFile, lookupFile, Ne.symm h]
      · simp [writeFile, lookupFile, hn, ih]

theorem deserAll_map_serialize (qs : List DataPoint)
    (h : ∀ q ∈ qs, deserializePoint (serializePoint q) = some q) :
    deserAll (qs.map serializePoint) = some qs := by
  induction qs with
  | nil => rfl
  | cons q qs ih =>
      simp only [List.map_cons, deserAll, h q (by simp),
        ih fun q hq => h q (by simp [hq])]

theorem deserAll_eq_none_of_mem (es : List Item) (i : Item) (hi : i ∈ es)
    (h : deserializePoint i = none) : deserAll es = none := by
  induction es with
  | nil => simp at hi
  | cons j js ih =>
      rcases List.mem_cons.mp hi with hij | hij
      · subst hij
        simp [deserAll, h]
      · cases hd : deserializePoint j <;> simp [deserAll, hd, ih hij]

theorem exists_deser_of_deserAll_mem (es : List Item) (qs : List DataPoint)
    (h : deserAll es = some qs) (q : DataPoint) (hq : q ∈ qs) :
    ∃ i, i ∈ es ∧ deserializePoint i = some q := by
  induction es generalizing qs with
  | nil =>
      simp only [deserAll, Option.some.injEq] at h
      subst h
      simp at hq
  | cons i is ih =>
      cases hd : deserializePoint i with
      | none => simp [deserAll, hd] at h
      | some p =>
          cases ht : deserAll is with
          | none => simp [deserAll, hd, ht] at h
          | some ps =>
              simp only [deserAll, hd, ht, Option.some.injEq] at h
              subst h
              rcases List.mem_cons.mp hq with hqp | hqp
              · exact ⟨i, by simp, by rw [hd, hqp]⟩
              · obtain ⟨j, hj, hdj⟩ := ih ps ht hqp
                exact ⟨j, by simp [hj], hdj⟩

theorem deser_serialize_of_deser (i : Item) (p : DataPoint)
    (h : deserializePoint i = some p) :
    deserializePoint (serializePoint p) = some p := by
  unfold deserializePoint at h
  by_cases hc : i.source = stravaStr ∧ i.data_type = activityStr
  · rw [if_pos hc] at h
    by_cases hr : stravaRequiredOk i.extra
    · rw [if_pos hr] at h
      obtain rfl : _ = p := Option.some.inj h
      simp [deserializePoint, serializePoint, hc.1, hc.2, hr]
    · rw [if_neg hr] at h
      simp at h
  · rw [if_neg hc] at h
    obtain rfl : _ = p := Option.some.inj h
    simp only [deserializePoint, serializePoint]
    rw [if_neg hc]

theorem stravaRequiredOk_nil : stravaRequiredOk [] = false := by decide

theorem good_deser_serialize (p : DataPoint) (h : GoodRecord p) :
    deserializePoint (serializePoint p) = some p ∨
    deserializePoint (serializePoint p) = none := by
  obtain ⟨ts, s, d, m, e⟩ := p
  rcases h with ⟨hs, hd⟩ | hext
  · simp only at hs hd
    subst hs
    subst hd
    by_cases hr : stravaRequiredOk e
    · left
      simp [deserializePoint, serializePoint, hr]
    · right
      simp [deserializePoint, serializePoint, hr]
  · simp only at hext
    subst hext
    by_cases hc : s = stravaStr ∧ d = activityStr
    · right
      obtain ⟨hs, hd⟩ := hc
      subst hs
      subst hd
      simp [deserializePoint, serializePoint, stravaRequiredOk_nil]
    · left
      simp [deserializePoint, serializePoint, hc]

theorem sortTs_sorted (l : List DataPoint) : List.Sorted tsLe (sortTs l) :=
  List.sorted_insertionSort tsLe l

theorem sortTs_perm (l : List DataPoint) : List.Perm (sortTs l) l :=
  List.perm_insertionSort tsLe l

theorem sortTs_eq_of_sorted {l : List DataPoint} (h : List.Sorted tsLe l) :
    sortTs l = l :=
  h.insertionSort_eq

theorem saveGroup_raise (st : StoreState) (s d : Str) (pts : List DataPoint)
    (h : deserAll (existingItems st (fileStem s d)) = none) :
    saveGroup st s d pts = (st, true) := by
  simp [saveGroup, h]

theorem saveGroup_ok (st : StoreState) (s d : Str) (pts : List DataPoint)
    (qs : List DataPoint)
    (h : deserAll (existingItems st (fileStem s d)) = some qs) :
    saveGroup st s d pts =
      (writeFile st (fileStem s d)
        (FileContent.entries
          ((sortTs (qs ++ pts.filter fun p =>
              decide (¬ pointKey p ∈ qs.map pointKey))).map serializePoint)),
        false) := by
  simp [saveGroup, h]

theorem existing_entries_of_deserAll_none (st : StoreState) (stem : Str)
    (h : deserAll (existingItems st stem) = none) :
    ∃ es, lookupFile st stem = some (FileContent.entries es) ∧ deserAll es = none := by
  unfold existingItems at h
  cases hl : lookupFile st stem with
  | none => rw [hl] at h; simp [deserAll] at h
  | some c =>
      cases c with
      | corrupt => rw [hl] at h; simp [deserAll] at h
      | entries es => rw [hl] at h; exact ⟨es, rfl, h⟩

theorem saveGroup_raise_state (st t : StoreState) (s d : Str) (pts : List DataPoint)
    (h : saveGroup st s d pts = (t, true)) :
    t = st ∧ Poisoned (lookupFile st (fileStem s d)) := by
  cases hda : deserAll (existingItems st (fileStem s d)) with
  | none =>
      rw [saveGroup_raise st s d pts hda] at h
      obtain ⟨es, hlk, hes⟩ := existing_entries_of_deserAll_none st (fileStem s d) hda
      exact ⟨(Prod.mk.injEq .. ▸ h).1.symm, es, hlk, hes⟩
  | some qs =>
      rw [saveGroup_ok st s d pts qs hda] at h
      simp at h

theorem poisoned_deserAll_none (st : StoreState) (stem : Str)
    (h : Poisoned (lookupFile st stem)) :
    deserAll (existingItems st stem) = none := by
  obtain ⟨es, hlk, hes⟩ := h
  simp [existingItems, hlk, hes]

theorem saveGroup_lookup_ne (st : StoreState) (s d : Str) (pts : List DataPoint)
    (stem' : Str) (h : stem' ≠ fileStem s d) :
    lookupFile (saveGroup st s d pts).1 stem' = lookupFile st stem' := by
  cases hda : deserAll (existingItems st (fileStem s d)) with
  | none => rw [saveGroup_raise st s d pts hda]
  | some qs =>
      rw [saveGroup_ok st s d pts qs hda]
      exact lookupFile_writeFile_ne st (fileStem s d) stem' _ h

theorem SavedFile_mono (ks ks' : List (Int × Jval)) (c : Option FileContent)
    (hsub : ∀ k ∈ ks, k ∈ ks') (h : SavedFile ks' c) : SavedFile ks c := by
  obtain ⟨es, hc, hdisj⟩ := h
  refine ⟨es, hc, ?_⟩
  rcases hdisj with hnone | ⟨qs, h1, h2, h3, h4⟩
  · exact Or.inl hnone
  · exact Or.inr ⟨qs, h1, h2, h3, fun k hk => h4 k (hsub k hk)⟩

theorem SavedFile_of_poisoned (ks : List (Int × Jval)) (c : Option FileContent)
    (h : Poisoned c) : SavedFile ks c := by
  obtain ⟨es, hc, hes⟩ := h
  exact ⟨es, hc, Or.inl hes⟩

theorem saveGroup_fix (st : StoreState) (s d : Str) (pts : List DataPoint)
    (h : SavedFile (pts.map pointKey) (lookupFile st (fileStem s d))) :
    (saveGroup st s d pts).1 = st := by
  obtain ⟨es, hlk, hdisj⟩ := h
  have hex : existingItems st (fileStem s d) = es := by
    simp [existingItems, hlk]
  rcases hdisj with hnone | ⟨qs, h1, h2, h3, h4⟩
  · rw [saveGroup_raise st s d pts (hex ▸ hnone)]
  · rw [saveGroup_ok st s d pts qs (hex ▸ h1)]
    have hfilter : (pts.filter fun p => decide (¬ pointKey p ∈ qs.map pointKey)) = [] := by
      refine List.filter_eq_nil_iff.mpr fun p hp => ?_
      simp only [decide_not, Bool.not_eq_true', decide_eq_false_iff_not, not_not]
      exact h4 (pointKey p) (List.mem_map_of_mem pointKey hp)
    rw [hfilter, List.append_nil, sortTs_eq_of_sorted h3, h2]
    exact writeFile_lookup_self st (fileStem s d) (FileContent.entries es) hlk

theorem saveGroup_saved (st : StoreState) (s d : Str) (pts qs : List DataPoint)
    (hgood : ∀ p ∈ pts, GoodRecord p)
    (h : deserAll (existingItems st (fileStem s d)) = some qs) :
    SavedFile (qs.map pointKey ++ pts.map pointKey)
      (lookupFile (saveGroup st s d pts).1 (fileStem s d)) := by
  rw [saveGroup_ok st s d pts qs h]
  set new := pts.filter fun p => decide (¬ pointKey p ∈ qs.map pointKey) with hnew
  set allp := sortTs (qs ++ new) with hall
  rw [lookupFile_writeFile_self]
  refine ⟨allp.map serializePoint, rfl, ?_⟩
  by_cases hstable : ∀ q ∈ allp, deserializePoint (serializePoint q) = some q
  · refine Or.inr ⟨allp, deserAll_map_serialize allp hstable, rfl, ?_, ?_⟩
    · rw [hall]; exact sortTs_sorted _
    intro k hk
    rcases List.mem_append.mp hk with hkq | hkp
    · obtain ⟨q, hq, rfl⟩ := List.mem_map.mp hkq
      have hqa : q ∈ allp := by
        rw [hall]
        exact (sortTs_perm _).mem_iff.mpr (List.mem_append.mpr (Or.inl hq))
      exact List.mem_map_of_mem pointKey hqa
    · obtain ⟨p, hp, rfl⟩ := List.mem_map.mp hkp
      by_cases hmem : pointKey p ∈ qs.map pointKey
      · obtain ⟨q, hq, hqk⟩ := List.mem_map.mp hmem
        have hqa : q ∈ allp := by
          rw [hall]
          exact (sortTs_perm _).mem_iff.mpr (List.mem_append.mpr (Or.inl hq))
        exact hqk ▸ List.mem_map_of_mem pointKey hqa
      · have hpnew : p ∈ new := by
          rw [hnew]
          exact List.mem_filter.mpr ⟨hp, by simpa using hmem⟩
        have hpa : p ∈ allp := by
          rw [hall]
          exact (sortTs_perm _).mem_iff.mpr (List.mem_append.mpr (Or.inr hpnew))
        exact List.mem_map_of_mem pointKey hpa
  · push_neg at hstable
    obtain ⟨q, hq, hne⟩ := hstable
    left
    have hq' : q ∈ qs ++ new := by
      rw [hall] at hq
      exact (sortTs_perm _).mem_iff.mp hq
    have hnone : deserializePoint (serializePoint q) = none := by
      rcases List.mem_append.mp hq' with hqq | hqn
      · obtain ⟨i, _, hdi⟩ := exists_deser_of_deserAll_mem _ qs h q hqq
        exact absurd (deser_serialize_of_deser i q hdi) hne
      · rw [hnew] at hqn
        have hqp : q ∈ pts := (List.mem_filter.mp hqn).1
        rcases good_deser_serialize q (hgood q hqp) with hs | hs
        · exact absurd hs hne
        · exact hs
    exact deserAll_eq_none_of_mem _ (serializePoint q)
      (List.mem_map_of_mem serializePoint hq) hnone

theorem saveGroups_lookup_of_saved (gs : List ((Str × Str) × List DataPoint))
    (st : StoreState) (stem : Str) (ks : List (Int × Jval))
    (hgood : ∀ g ∈ gs, ∀ p ∈ g.2, GoodRecord p)
    (h : SavedFile ks (lookupFile st stem)) :
    SavedFile ks (lookupFile (saveGroups st gs).1 stem) := by
  induction gs generalizing st with
  | nil => exact h
  | cons g gs ih =>
      obtain ⟨⟨s, d⟩, pts⟩ := g
      have hgood1 : ∀ p ∈ pts, GoodRecord p :=
        hgood ((s, d), pts) (List.mem_cons_self _ _)
      have hgoodr : ∀ g ∈ gs, ∀ p ∈ g.2, GoodRecord p :=
        fun g hg => hgood g (List.mem_cons_of_mem _ hg)
      cases e : saveGroup st s d pts with
      | mk t flag =>
          cases flag with
          | true =>
              have ht : t = st := (saveGroup_raise_state st t s d pts e).1
              simp only [saveGroups, e]
              exact ht ▸ h
          | false =>
              have hstep : SavedFile ks (lookupFile t stem) := by
                by_cases hstem : stem = fileStem s d
                · rw [hstem] at h ⊢
                  obtain ⟨es, hlk, hdisj⟩ := h
                  have hex : existingItems st (fileStem s d) = es := by
                    simp [existingItems, hlk]
                  rcases hdisj with hnone | ⟨qs, h1, h2, h3, h4⟩
                  · rw [saveGroup_raise st s d pts (hex ▸ hnone)] at e
                    simp at e
                  · have hsv := saveGroup_saved st s d pts qs hgood1 (hex ▸ h1)
                    rw [e] at hsv
                    refine SavedFile_mono ks _ _ (fun k hk => ?_) hsv
                    exact List.mem_append.mpr (Or.inl (h4 k hk))
                · have hne := saveGroup_lookup_ne st s d pts stem hstem
                  rw [e] at hne
                  exact hne ▸ h
              simp only [saveGroups, e]
              exact ih t hgoodr hstep

theorem savePass_fix (gs : List ((Str × Str) × List DataPoint)) (st : StoreState)
    (h : PassPre st gs) : (saveGroups st gs).1 = st := by
  induction gs with
  | nil => rfl
  | cons g gs ih =>
      obtain ⟨⟨s, d⟩, pts⟩ := g
      obtain ⟨hsf, hor⟩ := h
      have hfix := saveGroup_fix st s d pts hsf
      cases e : saveGroup st s d pts with
      | mk t flag =>
          have ht : t = st := by rw [e] at hfix; exact hfix
          cases flag with
          | true =>
              simp only [saveGroups, e]
              exact ht
          | false =>
              simp only [saveGroups, e]
              rw [ht]
              rcases hor with hpois | hpre
              · rw [saveGroup_raise st s d pts (poisoned_deserAll_none st _ hpois)] at e
                simp at e
              · exact ih hpre

theorem savePass_pre (gs : List ((Str × Str) × List DataPoint)) (st : StoreState)
    (hgood : ∀ g ∈ gs, ∀ p ∈ g.2, GoodRecord p) :
    PassPre (saveGroups st gs).1 gs := by
  induction gs generalizing st with
  | nil => trivial
  | cons g gs ih =>
      obtain ⟨⟨s, d⟩, pts⟩ := g
      have hgood1 : ∀ p ∈ pts, GoodRecord p :=
        hgood ((s, d), pts) (List.mem_cons_self _ _)
      have hgoodr : ∀ g ∈ gs, ∀ p ∈ g.2, GoodRecord p :=
        fun g hg => hgood g (List.mem_cons_of_mem _ hg)
      cases e : saveGroup st s d pts with
      | mk t flag =>
          cases flag with
          | true =>
              obtain ⟨ht, hpois⟩ := saveGroup_raise_state st t s d pts e
              simp only [saveGroups, e]
              rw [ht]
              exact ⟨SavedFile_of_poisoned _ _ hpois, Or.inl hpois⟩
          | false =>
              simp only [saveGroups, e]
              have hqs : ∃ qs, deserAll (existingItems st (fileStem s d)) = some qs := by
                cases hda : deserAll (existingItems st (fileStem s d)) with
                | none =>
                    rw [saveGroup_raise st s d pts hda] at e
                    simp at e
                | some qs => exact ⟨qs, rfl⟩
              obtain ⟨qs, hda⟩ := hqs
              have hsv := saveGroup_saved st s d pts qs hgood1 hda
              rw [e] at hsv
              have hsv' : SavedFile (pts.map pointKey) (lookupFile t (fileStem s d)) :=
                SavedFile_mono _ _ _
                  (fun k hk => List.mem_append.mpr (Or.inr hk)) hsv
              exact ⟨saveGroups_lookup_of_saved gs t (fileStem s d) _ hgoodr hsv',
                Or.inr (ih t hgoodr)⟩

/-- C1: save is idempotent.  For every list of records of the repository's
record model and every prior store state, running `save(R)` a second time
leaves every backing file with exactly the contents a single `save(R)`
produced (in particular repeated saves never grow a file), and a subsequent
unfiltered `load()` returns the same result. -/
theorem save_idempotent (R : List DataPoint) (st : StoreState)
    (hR : ∀ p ∈ R, GoodRecord p) :
    (saveOp R (saveOp R st).1).1 = (saveOp R st).1 ∧
    load4 none none none none (saveOp R (saveOp R st).1).1 =
      load4 none none none none (saveOp R st).1 := by
  have hgood : ∀ g ∈ groupsOf R, ∀ p ∈ g.2, GoodRecord p := by
    intro g hg p hp
    obtain ⟨k, _, rfl⟩ := List.mem_map.mp hg
    exact hR p (List.mem_filter.mp hp).1
  have hpre := savePass_pre (groupsOf R) st hgood
  have hfix := savePass_fix (groupsOf R) (saveGroups st (groupsOf R)).1 hpre
  exact ⟨hfix, by rw [show (saveOp R (saveOp R st).1).1 = (saveOp R st).1 from hfix]⟩

theorem save_idempotent_witness :
    (∀ p ∈ samplePoints, GoodRecord p) ∧
    ((saveOp samplePoints (saveOp samplePoints []).1).1 = (saveOp samplePoints []).1 ∧
      load4 none none none none (saveOp samplePoints (saveOp samplePoints []).1).1 =
        load4 none none none none (saveOp samplePoints []).1) :=
  ⟨by decide, save_idempotent samplePoints [] (by decide)⟩

/-- C10: delete with an empty matching record set returns 0 and leaves every
backing file untouched (no file removed, created, or rewritten). -/
theorem delete_no_match_noop (s? d? : Option Str) (a b : Option Int) (st : StoreState)
    (h : load4 s? d? a b st = some []) :
    deleteOp s? d? a b st = (st, some 0) := by
  unfold deleteOp
  rw [h]
  simp

theorem delete_no_match_noop_witness :
    load4 (some "s".toList) none none none
      [("other_file".toList, FileContent.entries [⟨7, "other".toList, "file".toList, [], []⟩])]
      = some [] ∧
    deleteOp (some "s".toList) none none none
      [("other_file".toList, FileContent.entries [⟨7, "other".toList, "file".toList, [], []⟩])]
      = ([("other_file".toList, FileContent.entries [⟨7, "other".toList, "file".toList, [], []⟩])],
        some 0) :=
  ⟨by decide, delete_no_match_noop _ _ _ _ _ (by decide)⟩

theorem saveOp_single (p : DataPoint) :
    saveOp [p] [] =
      ([(fileStem p.source p.data_type, FileContent.entries [serializePoint p])],
        false) := by
  show saveGroups [] (groupsOf [p]) = _
  have h1 : groupsOf [p] = [((p.source, p.data_type), [p])] := by
    simp [groupsOf, groupKeys, groupKeyOf]
  rw [h1]
  simp [saveGroups, saveGroup, existingItems, lookupFile, deserAll, sortTs, writeFile]

/-- C2 counterexample: a plain generic record whose pair is the registered
`("strava", "activity")` saves fine, but loading it back raises
(`StravaActivity.model_validate` fails on the generic shape), so `load`
does not return the record. -/
theorem roundtrip_strava_generic_cex :
    load4 (some stravaStr) (some activityStr) none none
      (saveOp [⟨0, stravaStr, activityStr,
        [("id".toList, Jval.jstr "1".toList)], []⟩] []).1 = none := by decide

theorem candidateStems_direct (s d : Str) (st : StoreState)
    (hs : s.isEmpty = false) (hd : d.isEmpty = false) :
    candidateStems (some s) (some d) st = [fileStem s d] := by
  unfold candidateStems
  simp [hs, hd]

/-- C2 (amended): the save-then-load round trip is exact for every record
that its applicable deserializer accepts (any generic record for an
unregistered pair, a strava activity carrying the required fields), given a
nonempty category (an empty category with an underscore-bearing source makes
the file-name scan miss the file). -/
theorem roundtrip_accepted (p : DataPoint)
    (hacc : deserializePoint (serializePoint p) = some p)
    (hd : p.data_type ≠ []) :
    load4 (some p.source) (some p.data_type) none none (saveOp [p] []).1
      = some [p] := by
  have hst : (saveOp [p] []).1 =
      [(fileStem p.source p.data_type, FileContent.entries [serializePoint p])] := by
    rw [saveOp_single]
  rw [hst]
  have hload :
      loadFile [(fileStem p.source p.data_type,
          FileContent.entries [serializePoint p])] none none
        (fileStem p.source p.data_type) = some [p] := by
    simp [loadFile, lookupFile, deserAll, hacc, matchByDate]
  have hde : p.data_type.isEmpty = false := by
    cases hdt : p.data_type with
    | nil => exact absurd hdt hd
    | cons c cs => rfl
  by_cases hs : p.source.isEmpty
  · have hsnil : p.source = [] := List.isEmpty_iff.mp hs
    have hscan :
        candidateStems (some p.source) (some p.data_type)
          [(fileStem p.source p.data_type,
            FileContent.entries [serializePoint p])] =
          [fileStem p.source p.data_type] := by
      rw [hsnil]
      unfold candidateStems
      simp [candidateStems.scanStems, fileStem, splitStem]
    unfold load4
    rw [hscan]
    simp [loadFiles, hload, sortTs]
  · have hse : p.source.isEmpty = false := by
      cases hst' : p.source with
      | nil => rw [hst'] at hs; exact absurd rfl hs
      | cons c cs => rfl
    unfold load4
    rw [candidateStems_direct p.source p.data_type _ hse hde]
    simp [loadFiles, hload, sortTs]

theorem roundtrip_accepted_witness :
    deserializePoint (serializePoint ⟨4, "zit".toList, "project".toList,
      [("k".toList, Jval.jstr "v".toList), ("id".toList, Jval.jnum 9)], []⟩) =
      some ⟨4, "zit".toList, "project".toList,
        [("k".toList, Jval.jstr "v".toList), ("id".toList, Jval.jnum 9)], []⟩ ∧
    load4 (some "zit".toList) (some "project".toList) none none
      (saveOp [⟨4, "zit".toList, "project".toList,
        [("k".toList, Jval.jstr "v".toList), ("id".toList, Jval.jnum 9)], []⟩] []).1
      = some [⟨4, "zit".toList, "project".toList,
        [("k".toList, Jval.jstr "v".toList), ("id".toList, Jval.jnum 9)], []⟩] :=
  ⟨by decide, roundtrip_accepted _ (by decide) (by decide)⟩

/-- C7 counterexample: the array element written for a record with attribute
key `k` keeps the attribute mapping nested under a `metadata` key; no `k`
appears at the top level, contradicting the flat merged layout the spec
states. -/
theorem persisted_layout_cex :
    (saveOp [⟨0, "s".toList, "t".toList, [("k".toList, Jval.jstr "v".toList)], []⟩] []).1
      = [(fileStem "s".toList "t".toList, FileContent.entries
          [⟨0, "s".toList, "t".toList, [("k".toList, Jval.jstr "v".toList)], []⟩])] ∧
    itemTopKeys ⟨0, "s".toList, "t".toList, [("k".toList, Jval.jstr "v".toList)], []⟩
      ≠ specFlatTopKeys ⟨0, "s".toList, "t".toList, [("k".toList, Jval.jstr "v".toList)], []⟩ ∧
    "metadata".toList ∈
      itemTopKeys ⟨0, "s".toList, "t".toList, [("k".toList, Jval.jstr "v".toList)], []⟩ ∧
    ¬ "k".toList ∈
      itemTopKeys ⟨0, "s".toList, "t".toList, [("k".toList, Jval.jstr "v".toList)], []⟩ := by
  decide

/-- C7 (amended): each persisted array element is the record's full
serialized form with `timestamp`, `source`, `data_type` and the
specialization's further top-level fields flat, and the attribute mapping
nested under the `metadata` key (not merged into the top level). -/
theorem persisted_layout (p : DataPoint) :
    (saveOp [p] []).1 =
      [(fileStem p.source p.data_type, FileContent.entries [serializePoint p])] ∧
    itemTopKeys (serializePoint p) =
      ["timestamp".toList, "source".toList, "data_type".toList, "metadata".toList]
        ++ p.extra.map Prod.fst ∧
    (serializePoint p).metadata = p.metadata :=
  ⟨by rw [saveOp_single], rfl, rfl⟩

/-- C8: the backing file name is a deterministic function of the pair, but
parsing it back (as the load/delete scan does) splits at the first
underscore, so for the pair `("test_source", "test_type")` — the one the
repository's own fixtures use — the recovered pair is
`("test", "source_test_type")`, not the original. -/
theorem filename_parse_bug :
    splitStem (fileStem "test_source".toList "test_type".toList) =
      some ("test".toList, "source_test_type".toList) ∧
    splitStem (fileStem "test_source".toList "test_type".toList) ≠
      some ("test_source".toList, "test_type".toList) := by decide

/-- C3: delete does not partition by the record-level filters.  After saving
the conftest fixture, `delete(source="test_source")` must remove the two
matching records and return 2 (tests/unit/test_storage.py,
`test_delete_by_source`), but the file-name scan parses each stem at its
first underscore, matches no file, and the call deletes nothing and
returns 0. -/
theorem delete_partition_bug :
    load4 none none none none sampleState = some samplePoints ∧
    (samplePoints.filter
      (matchesDel (some "test_source".toList) none none none)).length = 2 ∧
    deleteOp (some "test_source".toList) none none none sampleState =
      (sampleState, some 0) := by decide

theorem lookupFile_removeFile_ne (st : StoreState) (stem stem' : Str)
    (h : stem' ≠ stem) :
    lookupFile (removeFile st stem) stem' = lookupFile st stem' := by
  induction st with
  | nil => rfl
  | cons hd tl ih =>
      obtain ⟨n, c⟩ := hd
      by_cases hn : n = stem
      · subst hn
        simp [removeFile, lookupFile, Ne.symm h]
      · simp [removeFile, lookupFile, hn, ih]

/-- C6 counterexample: with the `("s","t")` backing file present but holding
no records, `delete(source="s", category="t")` returns 0 and leaves the file
in place rather than removing it. -/
theorem delete_pair_empty_cex :
    deleteOp (some "s".toList) (some "t".toList) none none
      [(fileStem "s".toList "t".toList, FileContent.entries [])] =
      ([(fileStem "s".toList "t".toList, FileContent.entries [])], some 0) ∧
    ([(fileStem "s".toList "t".toList, FileContent.entries [])] : StoreState) ≠ [] := by
  decide

/-- C6 (amended): when the `(source, category)` backing file exists and
yields at least one readable record, delete with both (nonempty) filters and
no date range unlinks exactly that file and returns its record count, and
every other file is untouched; a file yielding no readable record is instead
left in place with count 0. -/
theorem delete_pair_removes_file (s d : Str) (st : StoreState) (es : List Item)
    (qs : List DataPoint)
    (hs : s.isEmpty = false) (hd : d.isEmpty = false)
    (hlk : lookupFile st (fileStem s d) = some (FileContent.entries es))
    (hdes : deserAll es = some qs) (hne : qs ≠ []) :
    deleteOp (some s) (some d) none none st =
      (removeFile st (fileStem s d), some qs.length) ∧
    ∀ stem', stem' ≠ fileStem s d →
      lookupFile (removeFile st (fileStem s d)) stem' = lookupFile st stem' := by
  have hl4 : load4 (some s) (some d) none none st = some (sortTs qs) := by
    unfold load4
    rw [candidateStems_direct s d st hs hd]
    simp [loadFiles, loadFile, hlk, hdes, matchByDate]
  have hne' : (sortTs qs).isEmpty = false := by
    cases hq : sortTs qs with
    | nil =>
        have hperm := sortTs_perm qs
        rw [hq] at hperm
        exact absurd hperm.symm.eq_nil hne
    | cons a l => rfl
  refine ⟨?_, fun stem' h => lookupFile_removeFile_ne st _ stem' h⟩
  unfold deleteOp
  rw [hl4]
  simp only [hne', Bool.false_eq_true, if_false]
  rw [if_neg (by simp [hs, hd])]
  rw [hlk]
  simp [(sortTs_perm qs).length_eq]

theorem delete_pair_removes_file_witness :
    lookupFile sampleState (fileStem "test_source".toList "test_type".toList) =
      some (FileContent.entries
        [serializePoint (samplePoints.get ⟨0, by decide⟩),
         serializePoint (samplePoints.get ⟨1, by decide⟩)]) ∧
    deleteOp (some "test_source".toList) (some "test_type".toList) none none
      sampleState =
      (removeFile sampleState (fileStem "test_source".toList "test_type".toList),
        some 2) :=
  ⟨by decide,
    (delete_pair_removes_file "test_source".toList "test_type".toList sampleState
      [serializePoint (samplePoints.get ⟨0, by decide⟩),
       serializePoint (samplePoints.get ⟨1, by decide⟩)]
      [samplePoints.get ⟨0, by decide⟩, samplePoints.get ⟨1, by decide⟩]
      (by decide) (by decide) (by decide) (by decide) (by decide)).1⟩

theorem lookupFile_some_mem (st : StoreState) (stem : Str) (c : FileContent)
    (h : lookupFile st stem = some c) : stem ∈ st.map Prod.fst := by
  induction st with
  | nil => simp [lookupFile] at h
  | cons hd tl ih =>
      obtain ⟨n, c'⟩ := hd
      by_cases hn : n = stem
      · subst hn
        exact List.mem_cons_self _ _
      · simp only [lookupFile, hn, if_false] at h
        exact List.mem_cons_of_mem _ (ih h)

theorem loadFiles_none_of_mem (st : StoreState) (a b : Option Int)
    (stems : List Str) (stem : Str) (hmem : stem ∈ stems)
    (h : loadFile st a b stem = none) : loadFiles st a b stems = none := by
  induction stems with
  | nil => simp at hmem
  | cons s ss ih =>
      rcases List.mem_cons.mp hmem with hss | hss
      · subst hss
        simp [loadFiles, h]
      · cases hl : loadFile st a b s <;> simp [loadFiles, hl, ih hss]

/-- C9 counterexample: a backing file that parses as JSON but whose single
entry fails the applicable (strava) deserializer makes `load()` raise
(`none`), rather than treating the file as empty and carrying on. -/
theorem deser_failure_fatal_cex :
    load4 none none none none
      [("strava_activity".toList,
        FileContent.entries [⟨0, stravaStr, activityStr, [], []⟩])] = none ∧
    load4 none none none none
      [("strava_activity".toList,
        FileContent.entries [⟨0, stravaStr, activityStr, [], []⟩])] ≠ some [] := by
  decide

/-- C9 (amended): an entry-level deserialization failure in any scanned
backing file is fatal: the whole `load` call raises, never returning a
partially parsed file (only invalid-JSON files are skipped as empty), while
items of unknown `(source, category)` pairs fall back to the generic record
shape instead of failing. -/
theorem deser_failure_aborts (st : StoreState) (stem : Str) (es : List Item)
    (hlk : lookupFile st stem = some (FileContent.entries es))
    (hpat : (splitStem stem).isSome)
    (hbad : ∃ i ∈ es, deserializePoint i = none) :
    load4 none none none none st = none ∧
    ∀ i : Item, ¬(i.source = stravaStr ∧ i.data_type = activityStr) →
      deserializePoint i = some ⟨i.timestamp, i.source, i.data_type, i.metadata, []⟩ := by
  constructor
  · obtain ⟨i, hi, hdi⟩ := hbad
    have hload : loadFile st none none stem = none := by
      simp [loadFile, hlk, deserAll_eq_none_of_mem es i hi hdi]
    have hmem : stem ∈ candidateStems none none st := by
      obtain ⟨pr, hpr⟩ := Option.isSome_iff_exists.mp hpat
      unfold candidateStems
      refine List.mem_filter.mpr ⟨lookupFile_some_mem st stem _ hlk, ?_⟩
      simp [hpr]
    unfold load4
    rw [loadFiles_none_of_mem st none none _ stem hmem hload]
    rfl
  · intro i hi
    simp [deserializePoint, hi]

theorem deser_failure_aborts_witness :
    load4 none none none none
      [("x_y".toList, FileContent.entries [⟨3, "x".toList, "y".toList, [], []⟩]),
       ("strava_activity".toList,
        FileContent.entries [⟨0, stravaStr, activityStr, [], []⟩])] = none :=
  (deser_failure_aborts _ "strava_activity".toList
    [⟨0, stravaStr, activityStr, [], []⟩] (by decide) (by decide)
    ⟨⟨0, stravaStr, activityStr, [], []⟩, by decide, by decide⟩).1

/-- C5: corrupt-file resilience.  A store holding one invalid-JSON file and
one valid backing file for another pair yields, under an unfiltered `load()`
and in either directory order, exactly the valid file's records (sorted by
timestamp) without raising; the corrupt file contributes nothing. -/
theorem corrupt_file_resilience (cStem vStem : Str) (es : List Item)
    (qs : List DataPoint) (hne : cStem ≠ vStem)
    (hpat : (splitStem vStem).isSome) (hdes : deserAll es = some qs) :
    load4 none none none none
      [(cStem, FileContent.corrupt), (vStem, FileContent.entries es)] =
      some (sortTs qs) ∧
    load4 none none none none
      [(vStem, FileContent.entries es), (cStem, FileContent.corrupt)] =
      some (sortTs qs) ∧
    List.Perm (sortTs qs) qs := by
  obtain ⟨pr, hpr⟩ := Option.isSome_iff_exists.mp hpat
  refine ⟨?_, ?_, sortTs_perm qs⟩ <;>
    cases hc : splitStem cStem <;>
      simp [load4, candidateStems, candidateStems.scanStems, loadFiles, loadFile,
        lookupFile, hne, Ne.symm hne, hc, hpr, hdes, matchByDate]

theorem corrupt_file_resilience_witness :
    load4 none none none none
      [("zit".toList, FileContent.corrupt),
       ("zit_project".toList, FileContent.entries
         [⟨2, "zit".toList, "project".toList, [], []⟩])] =
      some [⟨2, "zit".toList, "project".toList, [], []⟩] :=
  ((corrupt_file_resilience "zit".toList "zit_project".toList
      [⟨2, "zit".toList, "project".toList, [], []⟩]
      [⟨2, "zit".toList, "project".toList, [], []⟩]
      (by decide) (by decide) (by decide)).1).trans (by decide)

theorem sorted_map_serialize (l : List DataPoint) (h : List.Sorted tsLe l) :
    List.Sorted itemTsLe (l.map serializePoint) :=
  List.Pairwise.map serializePoint (fun _ _ hab => hab) h

theorem mem_writeFile (st : StoreState) (stem : Str) (c : FileContent)
    (pr : Str × FileContent) (h : pr ∈ writeFile st stem c) :
    pr = (stem, c) ∨ pr ∈ st := by
  induction st with
  | nil =>
      simp only [writeFile, List.mem_singleton] at h
      exact Or.inl h
  | cons hd tl ih =>
      obtain ⟨n, c'⟩ := hd
      by_cases hn : n = stem
      · simp only [writeFile, hn, if_true] at h
        rcases List.mem_cons.mp h with h1 | h1
        · exact Or.inl h1
        · exact Or.inr (List.mem_cons_of_mem _ h1)
      · simp only [writeFile, hn, if_false] at h
        rcases List.mem_cons.mp h with h1 | h1
        · exact Or.inr (h1 ▸ List.mem_cons_self _ _)
        · rcases ih h1 with h2 | h2
          · exact Or.inl h2
          · exact Or.inr (List.mem_cons_of_mem _ h2)

theorem mem_removeFile (st : StoreState) (stem : Str) (pr : Str × FileContent)
    (h : pr ∈ removeFile st stem) : pr ∈ st := by
  induction st with
  | nil => simp [removeFile] at h
  | cons hd tl ih =>
      obtain ⟨n, c⟩ := hd
      by_cases hn : n = stem
      · simp only [removeFile, hn, if_true] at h
        exact List.mem_cons_of_mem _ h
      · simp only [removeFile, hn, if_false] at h
        rcases List.mem_cons.mp h with h1 | h1
        · exact h1 ▸ List.mem_cons_self _ _
        · exact List.mem_cons_of_mem _ (ih h1)

theorem saveGroup_inv (st : StoreState) (s d : Str) (pts : List DataPoint)
    (hinv : ∀ pr ∈ st, ∀ es, pr.2 = FileContent.entries es → List.Sorted itemTsLe es) :
    ∀ pr ∈ (saveGroup st s d pts).1, ∀ es,
      pr.2 = FileContent.entries es → List.Sorted itemTsLe es := by
  cases hda : deserAll (existingItems st (fileStem s d)) with
  | none => rw [saveGroup_raise st s d pts hda]; exact hinv
  | some qs =>
      rw [saveGroup_ok st s d pts qs hda]
      intro pr hpr es hes
      rcases mem_writeFile st _ _ pr hpr with h1 | h1
      · rw [h1] at hes
        simp only at hes
        obtain rfl : _ = es := FileContent.entries.inj hes
        exact sorted_map_serialize _ (sortTs_sorted _)
      · exact hinv pr h1 es hes

theorem saveGroups_inv (gs : List ((Str × Str) × List DataPoint)) (st : StoreState)
    (hinv : ∀ pr ∈ st, ∀ es, pr.2 = FileContent.entries es → List.Sorted itemTsLe es) :
    ∀ pr ∈ (saveGroups st gs).1, ∀ es,
      pr.2 = FileContent.entries es → List.Sorted itemTsLe es := by
  induction gs generalizing st with
  | nil => exact hinv
  | cons g gs ih =>
      obtain ⟨⟨s, d⟩, pts⟩ := g
      have hstep := saveGroup_inv st s d pts hinv
      cases e : saveGroup st s d pts with
      | mk t flag =>
          rw [e] at hstep
          cases flag with
          | true => simp only [saveGroups, e]; exact hstep
          | false => simp only [saveGroups, e]; exact ih t hstep

theorem saveOp_inv (R : List DataPoint) (st : StoreState)
    (hinv : ∀ pr ∈ st, ∀ es, pr.2 = FileContent.entries es → List.Sorted itemTsLe es) :
    ∀ pr ∈ (saveOp R st).1, ∀ es,
      pr.2 = FileContent.entries es → List.Sorted itemTsLe es :=
  saveGroups_inv (groupsOf R) st hinv

theorem load4_sorted (s? d? : Option Str) (a b : Option Int) (st : StoreState)
    (l : List DataPoint) (h : load4 s? d? a b st = some l) :
    List.Sorted tsLe l := by
  unfold load4 at h
  cases hl : loadFiles st a b (candidateStems s? d? st) with
  | none => rw [hl] at h; simp at h
  | some l' =>
      rw [hl] at h
      obtain rfl : sortTs l' = l := Option.some.inj h
      exact sortTs_sorted l'

theorem deleteRewrite_inv (s? d? : Option Str) (a b : Option Int) (st : StoreState)
    (hinv : ∀ pr ∈ st, ∀ es, pr.2 = FileContent.entries es → List.Sorted itemTsLe es) :
    ∀ pr ∈ (deleteRewrite s? d? a b st).1, ∀ es,
      pr.2 = FileContent.entries es → List.Sorted itemTsLe es := by
  unfold deleteRewrite
  cases hall : load4 none none none none st with
  | none => exact hinv
  | some all =>
      simp only
      by_cases hk : (all.filter fun p => !(matchesDel s? d? a b p)).isEmpty
      · simp only [hk, if_true]
        intro pr hpr
        simp at hpr
      · simp only [hk, if_false]
        exact saveOp_inv _ [] (by intro pr hpr; simp at hpr)

theorem deleteOp_inv (s? d? : Option Str) (a b : Option Int) (st : StoreState)
    (hinv : ∀ pr ∈ st, ∀ es, pr.2 = FileContent.entries es → List.Sorted itemTsLe es) :
    ∀ pr ∈ (deleteOp s? d? a b st).1, ∀ es,
      pr.2 = FileContent.entries es → List.Sorted itemTsLe es := by
  unfold deleteOp
  cases hl : load4 s? d? a b st with
  | none => exact hinv
  | some pts =>
      simp only
      by_cases hp : pts.isEmpty
      · simp only [hp, if_true]; exact hinv
      · simp only [hp, if_false]
        cases s? with
        | none => exact deleteRewrite_inv _ _ _ _ st hinv
        | some s =>
            cases d? with
            | none => exact deleteRewrite_inv _ _ _ _ st hinv
            | some d =>
                cases a with
                | some x => exact deleteRewrite_inv _ _ _ _ st hinv
                | none =>
                    cases b with
                    | some y => exact deleteRewrite_inv _ _ _ _ st hinv
                    | none =>
                        simp only
                        by_cases he : s.isEmpty = true ∨ d.isEmpty = true
                        · simp only [he, if_true]
                          exact deleteRewrite_inv _ _ _ _ st hinv
                        · simp only [he, if_false]
                          by_cases hlk : (lookupFile st (fileStem s d)).isSome
                          · simp only [hlk, if_true]
                            exact fun pr hpr => hinv pr (mem_removeFile st _ pr hpr)
                          · simp only [hlk, if_false]
                            exact hinv

/-- C4: sort invariant.  In every store state reachable from an empty
directory by `save`/`delete` operations, every backing file holds its
records in ascending timestamp order, and every `load()` call, under any
filters and on any state, returns a timestamp-sorted list. -/
theorem sort_invariant (st : StoreState) (h : Reachable st) :
    (∀ pr ∈ st, ∀ es, pr.2 = FileContent.entries es → List.Sorted itemTsLe es) ∧
    (∀ (s? d? : Option Str) (a b : Option Int) (l : List DataPoint),
      load4 s? d? a b st = some l → List.Sorted tsLe l) := by
  refine ⟨?_, fun s? d? a b l hl => load4_sorted s? d? a b st l hl⟩
  induction h with
  | empty => intro pr hpr; simp at hpr
  | save R st' _ ih => exact saveOp_inv R st' ih
  | del s? d? a b st' _ ih => exact deleteOp_inv s? d? a b st' ih

theorem sort_invariant_witness :
    (∀ pr ∈ sampleState, ∀ es, pr.2 = FileContent.entries es →
      List.Sorted itemTsLe es) ∧
    (∀ (s? d? : Option Str) (a b : Option Int) (l : List DataPoint),
      load4 s? d? a b sampleState = some l → List.Sorted tsLe l) :=
  sort_invariant sampleState (Reachable.save samplePoints [] Reachable.empty)
